import Mathlib

/-!
# Verification of the laron-wallet BIP39/BIP32 core

Shallow embedding of the mnemonic codec (`src/bip39/mnemonic.rs`,
`src/bip39/mod.rs`), seed derivation (`src/bip39/seed.rs`,
`src/bips/bip39/seed.rs`, `src/bip39/mod.rs`) and extended-key derivation
(`src/bips/bip32/mod.rs`, `src/bip32/extended.rs`).

Bytes are `Nat` values `< 256` inside `List Nat`.  The external
cryptographic primitives (SHA-256, HMAC-SHA512, PBKDF2, RIPEMD-160), the
Unicode NFKD normalizer and the elliptic-curve key algebra are abstract
parameters: in the specification they are external collaborators whose
internals are out of scope, only the way the core combines them is
embedded.  The static wordlist text files bundled with the crate are not
part of the sources, so wordlists are parameters `List String` with the
properties the specification gives them (2048 distinct whitespace-free
words, word map the exact inverse of the word list).
-/

namespace LaronWallet

/-! ## Bit-level utilities

`expandBits k v` is the embedding of the Rust iterator
`(0..k).rev().map(|i| (v >> i) & 1)` used by both
`Mnemonic::from_entropy_unchecked` (with `k = 8` over each byte) and
`Mnemonic::phrase_to_entropy` (with `k = 11` over each word index).
`natBitsVal` embeds the fold `|acc, bit| (acc << 1) | bit`. -/

def expandBits (k v : Nat) : List Nat :=
  (List.range k).reverse.map (fun i => v >>> i &&& 1)

def natBitsVal (l : List Nat) : Nat :=
  l.foldl (fun acc bit => acc <<< 1 ||| bit) 0

/-- Structurally recursive worker for `chunkList`, with a fuel argument
so that it reduces inside the kernel; the fuel is always instantiated
with the list length, which suffices. -/
def chunkListF : Nat → Nat → List α → List (List α)
  | _, _, [] => []
  | _, 0, _ :: _ => []
  | 0, _ + 1, _ :: _ => []
  | f + 1, n + 1, x :: xs =>
    List.take (n + 1) (x :: xs) :: chunkListF f (n + 1) (List.drop n xs)

/-- Embedding of `chunkList n l` embeds Rust's slice iterator `chunks(n)`: all
`n`-element chunks in order, the last chunk possibly shorter. -/
def chunkList (n : Nat) (l : List α) : List (List α) :=
  chunkListF l.length n l

theorem chunkListF_congr :
    ∀ (f1 : Nat), ∀ (f2 n : Nat) (l : List α), l.length ≤ f1 → l.length ≤ f2 →
      chunkListF f1 n l = chunkListF f2 n l := by
  intro f1
  induction f1 with
  | zero =>
    intro f2 n l h1 h2
    have : l = [] := List.eq_nil_of_length_eq_zero (by omega)
    subst this
    cases f2 <;> cases n <;> rfl
  | succ f ih =>
    intro f2 n l h1 h2
    cases l with
    | nil => cases f2 <;> cases n <;> rfl
    | cons x xs =>
      cases n with
      | zero => cases f2 <;> rfl
      | succ m =>
        cases f2 with
        | zero => simp at h2
        | succ g =>
          show List.take (m + 1) (x :: xs) :: chunkListF f (m + 1) (List.drop m xs)
              = List.take (m + 1) (x :: xs) :: chunkListF g (m + 1) (List.drop m xs)
          congr 1
          apply ih
          · rw [List.length_drop]
            simp only [List.length_cons] at h1
            omega
          · rw [List.length_drop]
            simp only [List.length_cons] at h2
            omega

@[simp] theorem chunkList_nil (n : Nat) : chunkList n ([] : List α) = [] := by
  cases n <;> rfl

@[simp] theorem chunkList_zero (l : List α) : chunkList 0 l = [] := by
  cases l <;> rfl

theorem chunkList_cons {l : List α} (hl : l ≠ []) {n : Nat} (hn : 0 < n) :
    chunkList n l = l.take n :: chunkList n (l.drop n) := by
  cases n with
  | zero => omega
  | succ m =>
    cases l with
    | nil => simp at hl
    | cons x xs =>
      show List.take (m + 1) (x :: xs) :: chunkListF xs.length (m + 1) (List.drop m xs)
          = List.take (m + 1) (x :: xs)
            :: chunkListF (List.drop m xs).length (m + 1) (List.drop m xs)
      congr 1
      apply chunkListF_congr
      · rw [List.length_drop]; omega
      · rfl

theorem mem_chunkList {n : Nat} {l c : List α}
    (hc : c ∈ chunkList n l) {x : α} (hx : x ∈ c) : x ∈ l := by
  have main : ∀ (N : Nat) (l : List α), l.length ≤ N → ∀ {c : List α},
      c ∈ chunkList n l → ∀ {x : α}, x ∈ c → x ∈ l := by
    intro N
    induction N with
    | zero =>
      intro l hlen c hc x hx
      have : l = [] := List.eq_nil_of_length_eq_zero (by omega)
      subst this
      simp at hc
    | succ N ih =>
      intro l hlen c hc x hx
      by_cases hnil : l = []
      · subst hnil; simp at hc
      by_cases hn : n = 0
      · subst hn; simp at hc
      rw [chunkList_cons hnil (by omega)] at hc
      rcases List.mem_cons.mp hc with h1 | h1
      · subst h1; exact List.mem_of_mem_take hx
      · have hdl : (l.drop n).length ≤ N := by
          rw [List.length_drop]
          have : 0 < l.length := List.length_pos.mpr hnil
          omega
        exact List.mem_of_mem_drop (ih (l.drop n) hdl h1 hx)
  exact main l.length l (Nat.le_refl _) hc hx

theorem expandBits_length (k v : Nat) : (expandBits k v).length = k := by
  simp [expandBits]

theorem expandBits_succ (k v : Nat) :
    expandBits (k + 1) v = (v >>> k &&& 1) :: expandBits k v := by
  simp [expandBits, List.range_succ]

theorem mem_expandBits_lt_two {k v x : Nat} (hx : x ∈ expandBits k v) : x < 2 := by
  simp only [expandBits, List.mem_map, List.mem_reverse] at hx
  obtain ⟨i, -, rfl⟩ := hx
  have : v >>> i &&& 1 = v >>> i % 2 := Nat.and_one_is_mod _
  omega

theorem shiftLeft_one_lor {a b : Nat} (hb : b < 2) : a <<< 1 ||| b = 2 * a + b := by
  rw [Nat.shiftLeft_eq, pow_one]
  interval_cases b
  · rw [Nat.or_zero]; ring
  · apply Nat.eq_of_testBit_eq
    intro i
    rw [Nat.testBit_lor]
    cases i with
    | zero => simp [Nat.mul_add_mod, Nat.mul_comm a 2]
    | succ j =>
      rw [Nat.testBit_succ, Nat.testBit_succ, Nat.testBit_succ]
      have h1 : a * 2 / 2 = a := by omega
      have h2 : (2 * a + 1) / 2 = a := by omega
      have h3 : (1 : Nat) / 2 = 0 := by norm_num
      rw [h1, h2, h3, Nat.zero_testBit, Bool.or_false]

theorem mod_two_pow_succ (v k : Nat) :
    v % 2 ^ (k + 1) = v / 2 ^ k % 2 * 2 ^ k + v % 2 ^ k := by
  rw [pow_succ, Nat.mod_mul]; ring

theorem foldl_bits_expandBits (k v : Nat) :
    ∀ acc, List.foldl (fun acc bit => acc <<< 1 ||| bit) acc (expandBits k v)
      = acc * 2 ^ k + v % 2 ^ k := by
  induction k with
  | zero => intro acc; simp [expandBits, Nat.mod_one]
  | succ k ih =>
    intro acc
    rw [expandBits_succ]
    simp only [List.foldl_cons]
    rw [ih, shiftLeft_one_lor (by
      have : v >>> k &&& 1 = v >>> k % 2 := Nat.and_one_is_mod _
      omega)]
    rw [Nat.and_one_is_mod, Nat.shiftRight_eq_div_pow, mod_two_pow_succ]
    ring

/-- Decoding then re-encoding a `k`-bit group: `fold (expand v) = v`. -/
theorem natBitsVal_expandBits {k v : Nat} (hv : v < 2 ^ k) :
    natBitsVal (expandBits k v) = v := by
  rw [natBitsVal, foldl_bits_expandBits, Nat.zero_mul, Nat.zero_add,
    Nat.mod_eq_of_lt hv]

theorem expandBits_concat (k v : Nat) :
    expandBits (k + 1) v = expandBits k (v >>> 1) ++ [v &&& 1] := by
  induction k with
  | zero => simp [expandBits, List.range_succ]
  | succ k ih =>
    rw [expandBits_succ, ih, expandBits_succ]
    have : v >>> (k + 1) = v >>> 1 >>> k := by
      rw [← Nat.shiftRight_add v 1 k, Nat.add_comm 1 k]
    rw [this]
    rfl

theorem natBitsVal_concat {l : List Nat} {b : Nat} :
    natBitsVal (l ++ [b]) = (natBitsVal l) <<< 1 ||| b := by
  simp [natBitsVal]

/-- Encoding then decoding: `expand (fold l) = l` for a list of bits. -/
theorem expandBits_natBitsVal {l : List Nat} (hl : ∀ x ∈ l, x < 2) :
    expandBits l.length (natBitsVal l) = l := by
  induction l using List.reverseRecOn with
  | nil => simp [expandBits, natBitsVal]
  | append_singleton l b ih =>
    have hb : b < 2 := hl b (by simp)
    have hbits : ∀ x ∈ l, x < 2 := fun x hx => hl x (by simp [hx])
    rw [natBitsVal_concat, List.length_append, List.length_singleton,
      expandBits_concat, shiftLeft_one_lor hb]
    have h1 : (2 * natBitsVal l + b) >>> 1 = natBitsVal l := by
      rw [Nat.shiftRight_succ, Nat.shiftRight_zero]; omega
    have h2 : (2 * natBitsVal l + b) &&& 1 = b := by
      rw [Nat.and_one_is_mod]; omega
    rw [h1, h2, ih hbits]

theorem natBitsVal_lt {l : List Nat} (hl : ∀ x ∈ l, x < 2) :
    natBitsVal l < 2 ^ l.length := by
  induction l using List.reverseRecOn with
  | nil => simp [natBitsVal]
  | append_singleton l b ih =>
    have hb : b < 2 := hl b (by simp)
    have hbits : ∀ x ∈ l, x < 2 := fun x hx => hl x (by simp [hx])
    rw [natBitsVal_concat, shiftLeft_one_lor hb, List.length_append]
    have := ih hbits
    simp only [List.length_singleton, pow_add, pow_one]
    omega

/-- Joining the complete `n`-chunks of `l` recovers the longest
`n`-aligned prefix of `l` (the trailing partial chunk is dropped). -/
theorem flatten_takeWhile_chunkList :
    ∀ (n : Nat) (l : List α),
      ((chunkList n l).takeWhile (fun c => c.length == n)).flatten
        = l.take (n * (l.length / n)) := by
  intro n l
  have main : ∀ (N : Nat) (l : List α), l.length ≤ N →
      ((chunkList n l).takeWhile (fun c => c.length == n)).flatten
        = l.take (n * (l.length / n)) := by
    intro N
    induction N with
    | zero =>
      intro l hlen
      have : l = [] := List.eq_nil_of_length_eq_zero (by omega)
      subst this
      simp
    | succ N ih =>
      intro l hlen
      by_cases hnil : l = []
      · subst hnil; simp
      by_cases hn0 : n = 0
      · subst hn0; simp
      have hn : 0 < n := by omega
      have hlpos : 0 < l.length := List.length_pos.mpr hnil
      rw [chunkList_cons hnil hn]
      by_cases hfull : n ≤ l.length
      · have hfl : (l.take n).length = n := by
          rw [List.length_take]; omega
        rw [List.takeWhile_cons]
        simp only [hfl, beq_self_eq_true, if_true, List.flatten_cons]
        rw [ih (l.drop n) (by rw [List.length_drop]; omega)]
        have hq : l.length / n = (l.drop n).length / n + 1 := by
          rw [List.length_drop]
          exact Nat.div_eq_sub_div hn hfull
        rw [hq, Nat.mul_add, Nat.mul_one, Nat.add_comm (_ * _)]
        conv_rhs => rw [List.take_add]
      · have hpart : (l.take n).length ≠ n := by
          rw [List.length_take]; omega
        rw [List.takeWhile_cons]
        simp only [beq_iff_eq, hpart, if_false]
        have hzero : l.length / n = 0 := Nat.div_eq_of_lt (by omega)
        rw [hzero, Nat.mul_zero, List.take_zero, List.flatten_nil]
  exact main l.length l (Nat.le_refl _)

/-- Chunking a concatenation of uniform full blocks followed by one short
nonempty block yields exactly those blocks. -/
theorem chunkList_uniform {n : Nat} (hn : 0 < n) :
    ∀ (blocks : List (List α)) (t : List α),
      (∀ b ∈ blocks, b.length = n) → t ≠ [] → t.length ≤ n →
      chunkList n (blocks.flatten ++ t) = blocks ++ [t] := by
  intro blocks
  induction blocks with
  | nil =>
    intro t _ ht1 ht2
    rw [List.flatten_nil, List.nil_append]
    rw [chunkList_cons ht1 hn]
    rw [List.take_of_length_le ht2, List.drop_eq_nil_of_le ht2]
    simp
  | cons b bs ih =>
    intro t hb ht1 ht2
    have hblen : b.length = n := hb b (by simp)
    have hlist : (b :: bs).flatten ++ t = b ++ (bs.flatten ++ t) := by
      rw [List.flatten_cons, List.append_assoc]
    rw [hlist]
    have hnonnil : b ++ (bs.flatten ++ t) ≠ [] := by
      intro h
      have := congrArg List.length h
      simp [List.length_append, hblen] at this
      omega
    rw [chunkList_cons hnonnil hn]
    rw [List.take_left' hblen, List.drop_left' hblen]
    rw [ih t (fun c hc => hb c (by simp [hc])) ht1 ht2]
    simp

/-- The complete `n`-chunks of `l`, described as index-based slices: the
`j`-th complete chunk is `l[n*j .. n*j+n]`. -/
theorem takeWhile_chunkList_eq_slices :
    ∀ (n : Nat) (l : List α),
      (chunkList n l).takeWhile (fun c => c.length == n)
        = (List.range (l.length / n)).map (fun j => (l.drop (n * j)).take n) := by
  intro n l
  have main : ∀ (N : Nat) (l : List α), l.length ≤ N →
      (chunkList n l).takeWhile (fun c => c.length == n)
        = (List.range (l.length / n)).map (fun j => (l.drop (n * j)).take n) := by
    intro N
    induction N with
    | zero =>
      intro l hlen
      have : l = [] := List.eq_nil_of_length_eq_zero (by omega)
      subst this
      simp
    | succ N ih =>
      intro l hlen
      by_cases hnil : l = []
      · subst hnil; simp
      by_cases hn0 : n = 0
      · subst hn0; simp [Nat.div_zero]
      have hn : 0 < n := by omega
      have hlpos : 0 < l.length := List.length_pos.mpr hnil
      rw [chunkList_cons hnil hn]
      by_cases hfull : n ≤ l.length
      · have hfl : (l.take n).length = n := by
          rw [List.length_take]; omega
        rw [List.takeWhile_cons]
        simp only [hfl, beq_self_eq_true, if_true]
        have hq : l.length / n = (l.drop n).length / n + 1 := by
          rw [List.length_drop]
          exact Nat.div_eq_sub_div hn hfull
        rw [ih (l.drop n) (by rw [List.length_drop]; omega), hq,
          List.range_succ_eq_map]
        rw [List.map_cons, List.map_map]
        congr 1
        apply List.map_congr_left
        intro j hj
        simp only [Function.comp_apply, Nat.succ_eq_add_one]
        rw [List.drop_drop]
        congr 2
        ring
      · have hpart : (l.take n).length ≠ n := by
          rw [List.length_take]; omega
        rw [List.takeWhile_cons]
        simp only [beq_iff_eq, hpart, if_false]
        have hzero : l.length / n = 0 := Nat.div_eq_of_lt (by omega)
        rw [hzero]
        simp
  exact main l.length l (Nat.le_refl _)

/-! ## Strings and whitespace splitting

`wsplit` embeds Rust's `str::split_whitespace` (split on runs of Unicode
`White_Space` characters, yielding no empty tokens); it is used by
`Mnemonic::phrase_to_entropy` and by the helper `fn wsplit` of
`src/bip39/mod.rs`.  `joinWords` embeds `Vec::join(" ")`. -/

/-- The Unicode `White_Space` property, as used by Rust's
`char::is_whitespace`. -/
def isWsChar (c : Char) : Bool :=
  let n := c.toNat
  (0x9 ≤ n && n ≤ 0xD) || n == 0x20 || n == 0x85 || n == 0xA0 || n == 0x1680 ||
    (0x2000 ≤ n && n ≤ 0x200A) || n == 0x2028 || n == 0x2029 || n == 0x202F ||
    n == 0x205F || n == 0x3000

theorem dropWhile_length_le (p : α → Bool) :
    ∀ l : List α, (l.dropWhile p).length ≤ l.length := by
  intro l
  induction l with
  | nil => simp
  | cons x xs ih =>
    rw [List.dropWhile_cons]
    by_cases h : p x
    · simp only [h, if_true]
      exact Nat.le_trans ih (by simp)
    · simp [h]

/-- Structurally recursive worker for `splitWsChars`; the fuel is the
list length, which always suffices since each step consumes at least one
character. -/
def splitWsCharsF : Nat → List Char → List (List Char)
  | _, [] => []
  | 0, _ :: _ => []
  | f + 1, c :: cs =>
    if isWsChar c then splitWsCharsF f cs
    else (c :: cs.takeWhile (fun d => !isWsChar d))
      :: splitWsCharsF f (cs.dropWhile (fun d => !isWsChar d))

def splitWsChars (l : List Char) : List (List Char) :=
  splitWsCharsF l.length l

theorem splitWsCharsF_congr :
    ∀ (f1 : Nat), ∀ (f2 : Nat) (l : List Char), l.length ≤ f1 → l.length ≤ f2 →
      splitWsCharsF f1 l = splitWsCharsF f2 l := by
  intro f1
  induction f1 with
  | zero =>
    intro f2 l h1 h2
    have : l = [] := List.eq_nil_of_length_eq_zero (by omega)
    subst this
    cases f2 <;> rfl
  | succ f ih =>
    intro f2 l h1 h2
    cases l with
    | nil => cases f2 <;> rfl
    | cons c cs =>
      cases f2 with
      | zero => simp at h2
      | succ g =>
        simp only [List.length_cons] at h1 h2
        show (if isWsChar c then splitWsCharsF f cs
            else (c :: cs.takeWhile (fun d => !isWsChar d))
              :: splitWsCharsF f (cs.dropWhile (fun d => !isWsChar d)))
          = (if isWsChar c then splitWsCharsF g cs
            else (c :: cs.takeWhile (fun d => !isWsChar d))
              :: splitWsCharsF g (cs.dropWhile (fun d => !isWsChar d)))
        by_cases h : isWsChar c
        · rw [if_pos h, if_pos h]
          exact ih g cs (by omega) (by omega)
        · rw [if_neg h, if_neg h]
          congr 1
          have := dropWhile_length_le (fun d => !isWsChar d) cs
          exact ih g _ (by omega) (by omega)

@[simp] theorem splitWsChars_nil : splitWsChars [] = [] := rfl

theorem splitWsChars_ws {c : Char} (h : isWsChar c = true) (cs : List Char) :
    splitWsChars (c :: cs) = splitWsChars cs := by
  show (if isWsChar c then splitWsCharsF cs.length cs
      else (c :: cs.takeWhile (fun d => !isWsChar d))
        :: splitWsCharsF cs.length (cs.dropWhile (fun d => !isWsChar d)))
    = splitWsChars cs
  rw [if_pos h]
  rfl

theorem splitWsChars_nonws {c : Char} (h : isWsChar c = false) (cs : List Char) :
    splitWsChars (c :: cs)
      = (c :: cs.takeWhile (fun d => !isWsChar d))
        :: splitWsChars (cs.dropWhile (fun d => !isWsChar d)) := by
  show (if isWsChar c then splitWsCharsF cs.length cs
      else (c :: cs.takeWhile (fun d => !isWsChar d))
        :: splitWsCharsF cs.length (cs.dropWhile (fun d => !isWsChar d)))
    = _
  rw [if_neg (by rw [h]; exact Bool.false_ne_true)]
  congr 1
  apply splitWsCharsF_congr
  · exact dropWhile_length_le _ cs
  · exact Nat.le_refl _

theorem takeWhile_all {p : α → Bool} :
    ∀ {l : List α}, (∀ x ∈ l, p x = true) → l.takeWhile p = l := by
  intro l
  induction l with
  | nil => simp
  | cons x xs ih =>
    intro h
    rw [List.takeWhile_cons, h x (by simp), if_pos rfl, ih (fun y hy => h y (by simp [hy]))]

theorem dropWhile_all {p : α → Bool} :
    ∀ {l : List α}, (∀ x ∈ l, p x = true) → l.dropWhile p = [] := by
  intro l
  induction l with
  | nil => simp
  | cons x xs ih =>
    intro h
    rw [List.dropWhile_cons]
    simp only [h x (by simp), if_true]
    exact ih (fun y hy => h y (by simp [hy]))

theorem takeWhile_append_all {p : α → Bool} :
    ∀ {l1 l2 : List α}, (∀ x ∈ l1, p x = true) →
      (l1 ++ l2).takeWhile p = l1 ++ l2.takeWhile p := by
  intro l1
  induction l1 with
  | nil => simp
  | cons x xs ih =>
    intro l2 h
    rw [List.cons_append, List.takeWhile_cons, h x (by simp), if_pos rfl,
      ih (fun y hy => h y (by simp [hy]))]
    rfl

theorem dropWhile_append_all {p : α → Bool} :
    ∀ {l1 l2 : List α}, (∀ x ∈ l1, p x = true) →
      (l1 ++ l2).dropWhile p = l2.dropWhile p := by
  intro l1
  induction l1 with
  | nil => simp
  | cons x xs ih =>
    intro l2 h
    rw [List.cons_append, List.dropWhile_cons]
    simp only [h x (by simp), if_true]
    exact ih (fun y hy => h y (by simp [hy]))

theorem splitWsChars_single {w : List Char} (hw : w ≠ [])
    (hnw : ∀ c ∈ w, isWsChar c = false) : splitWsChars w = [w] := by
  cases w with
  | nil => exact absurd rfl hw
  | cons c cs =>
    rw [splitWsChars_nonws (hnw c (by simp))]
    have hall : ∀ d ∈ cs, (!isWsChar d) = true := by
      intro d hd; simp [hnw d (by simp [hd])]
    rw [takeWhile_all hall, dropWhile_all hall, splitWsChars_nil]

theorem splitWsChars_word_space {w : List Char} (hw : w ≠ [])
    (hnw : ∀ c ∈ w, isWsChar c = false) (r : List Char) :
    splitWsChars (w ++ ' ' :: r) = w :: splitWsChars r := by
  cases w with
  | nil => exact absurd rfl hw
  | cons c cs =>
    rw [List.cons_append, splitWsChars_nonws (hnw c (by simp))]
    have hall : ∀ d ∈ cs, (!isWsChar d) = true := by
      intro d hd; simp [hnw d (by simp [hd])]
    rw [takeWhile_append_all hall, dropWhile_append_all hall]
    have hsp : isWsChar ' ' = true := by decide
    have h1 : (' ' :: r).takeWhile (fun d => !isWsChar d) = [] := by
      rw [List.takeWhile_cons]; simp [hsp]
    have h2 : (' ' :: r).dropWhile (fun d => !isWsChar d) = ' ' :: r := by
      rw [List.dropWhile_cons]; simp [hsp]
    rw [h1, h2, List.append_nil, splitWsChars_ws hsp]

def joinChars : List (List Char) → List Char
  | [] => []
  | [w] => w
  | w :: w2 :: ws => w ++ ' ' :: joinChars (w2 :: ws)

theorem splitWsChars_joinChars :
    ∀ ws : List (List Char),
      (∀ w ∈ ws, w ≠ [] ∧ ∀ c ∈ w, isWsChar c = false) →
      splitWsChars (joinChars ws) = ws := by
  intro ws
  induction ws with
  | nil => intro _; simp [joinChars]
  | cons w ws ih =>
    intro h
    cases ws with
    | nil =>
      rw [show joinChars [w] = w from rfl]
      exact splitWsChars_single (h w (by simp)).1 (h w (by simp)).2
    | cons w2 ws2 =>
      rw [show joinChars (w :: w2 :: ws2) = w ++ ' ' :: joinChars (w2 :: ws2) from rfl]
      rw [splitWsChars_word_space (h w (by simp)).1 (h w (by simp)).2]
      rw [ih (fun v hv => h v (by simp [hv]))]

/-- Embedding of `str::split_whitespace().collect()`. -/
def wsplit (s : String) : List String :=
  (splitWsChars s.toList).map (fun l => String.mk l)

/-- Embedding of `Vec<&str>::join(" ")`. -/
def joinWords (ws : List String) : String :=
  String.mk (joinChars (ws.map String.toList))

/-- A word that survives the whitespace round trip: nonempty, and free of
Unicode whitespace.  Every entry of a real BIP39 wordlist satisfies this. -/
def goodWord (w : String) : Prop :=
  w.toList ≠ [] ∧ ∀ c ∈ w.toList, isWsChar c = false

theorem wsplit_joinWords {ws : List String} (h : ∀ w ∈ ws, goodWord w) :
    wsplit (joinWords ws) = ws := by
  unfold wsplit joinWords
  have htl : (String.mk (joinChars (ws.map String.toList))).toList
      = joinChars (ws.map String.toList) := rfl
  rw [htl, splitWsChars_joinChars _ (by
    intro w hw
    obtain ⟨v, hv, rfl⟩ := List.mem_map.mp hw
    exact h v hv)]
  rw [List.map_map]
  have : ((fun l => String.mk l) ∘ String.toList) = (id : String → String) := by
    funext s
    cases s
    rfl
  rw [this, List.map_id]

/-! ## External collaborators

The concrete hash/HMAC/PBKDF2/RIPEMD primitives and the NFKD normalizer
are, per the specification, external components: the embedding keeps them
abstract and only records how the core combines them. -/

structure Externals where
  sha256 : List Nat → List Nat
  hmacSha512 : List Nat → List Nat → List Nat
  pbkdf2HmacSha512 : List Nat → List Nat → Nat → Nat → List Nat
  ripemd160 : List Nat → List Nat
  nfkd : String → String

/-- Well-formedness of the abstract SHA-256: 32 output bytes, each a
byte.  True of the real primitive; used as a hypothesis. -/
def Sha256Valid (ext : Externals) : Prop :=
  ∀ d, (ext.sha256 d).length = 32 ∧ ∀ b ∈ ext.sha256 d, b < 256

/-! ## `src/bip39/error.rs` -/

inductive ErrKind
  | InvalidChecksum
  | InvalidWord
  | InvalidWordCount (count : Nat)
  | InvalidEntropyLength (len : Nat)
  | InvalidMnemonicLength (len : Nat)
deriving DecidableEq

/-! ## `src/bip39/language.rs`

The wordlist text resources (`include_str!` files) are not part of the
sources; a wordlist is therefore a `List String` parameter.  `Language`
only selects which static list is used, so it is dropped and the list is
passed directly. -/

/-- Embedding of `WordList::get`: direct vector indexing `self.data[index as usize]`.
The Rust code panics out of range; every call site indexes with an
11-bit value into a 2048-entry list, making the default unreachable. -/
def wordListGet (ws : List String) (index : Nat) : String :=
  ws.getD index ""

/-- Embedding of `Language::word_map` inserts `(word, i)` into a `HashMap` for each
position `i` in order, so a duplicated word would keep its last index;
`WordMap::get_index` then looks the word up, giving `InvalidWord` when it
is absent.  `wmLookupAux` scans the list keeping the latest match. -/
def wmLookupAux (w : String) : List String → Nat → Option Nat → Option Nat
  | [], _, acc => acc
  | x :: xs, i, acc => wmLookupAux w xs (i + 1) (if x == w then some i else acc)

def wordMapGetIndex (ws : List String) (w : String) : Except ErrKind Nat :=
  match wmLookupAux w ws 0 none with
  | some i => .ok i
  | none => .error .InvalidWord

/-! ## `src/bip39/mnemonic.rs` -/

/-- The `Type` enum of `src/bip39/mnemonic.rs` (`Type` is reserved in
Lean, hence `MnemonicType`). -/
inductive MnemonicType
  | words12
  | words15
  | words18
  | words21
  | words24
deriving DecidableEq

def MnemonicType.fromWords : Nat → Except ErrKind MnemonicType
  | 12 => .ok .words12
  | 15 => .ok .words15
  | 18 => .ok .words18
  | 21 => .ok .words21
  | 24 => .ok .words24
  | n => .error (.InvalidMnemonicLength n)

def MnemonicType.totalBits : MnemonicType → Nat
  | .words12 => 128
  | .words15 => 160
  | .words18 => 192
  | .words21 => 224
  | .words24 => 256

def MnemonicType.totalWords : MnemonicType → Nat
  | .words12 => 12
  | .words15 => 15
  | .words18 => 18
  | .words21 => 21
  | .words24 => 24

def MnemonicType.entropyBits (ty : MnemonicType) : Nat :=
  ty.totalBits - 8 * 4

def MnemonicType.checksumBits : MnemonicType → Nat
  | .words12 => 4
  | .words15 => 5
  | .words18 => 6
  | .words21 => 7
  | .words24 => 8

/-- The `Mnemonic` struct; the `language` tag is replaced by passing the
wordlist itself. -/
structure Mnemonic where
  entropy : List Nat
  phrase : String
deriving DecidableEq

/-- Embedding of `Sha256::digest(&entropy)[0]`. -/
def mnemonicChecksumByte (ext : Externals) (entropy : List Nat) : Nat :=
  (ext.sha256 entropy).getD 0 0

/-- The bit stream of `from_entropy_unchecked`:
`entropy.iter().chain(Some(&checksum)).flat_map(|byte| bits)`. -/
def mnemonicBits (ext : Externals) (entropy : List Nat) : List Nat :=
  (entropy ++ [mnemonicChecksumByte ext entropy]).flatMap (expandBits 8)

/-- The word indices of `from_entropy_unchecked`: the bit stream cut in
`chunks(11)`, keeping the complete chunks (`take_while(len == 11)`), each
folded to its big-endian value. -/
def encodeIndices (ext : Externals) (entropy : List Nat) : List Nat :=
  ((chunkList 11 (mnemonicBits ext entropy)).takeWhile
    (fun c => c.length == 11)).map natBitsVal

/-- Embedding of `Mnemonic::from_entropy_unchecked`. -/
def Mnemonic.fromEntropyUnchecked (ext : Externals) (ws : List String)
    (ent : List Nat) : Mnemonic :=
  { entropy := ent
    phrase := joinWords ((encodeIndices ext ent).map (wordListGet ws)) }

/-- Embedding of `.map(|word| word_map.get_index(word)).collect::<Result<Vec<_>, _>>()`. -/
def lookupIndices (ws : List String) : List String → Except ErrKind (List Nat)
  | [] => .ok []
  | w :: rest =>
    match wordMapGetIndex ws w with
    | .error e => .error e
    | .ok i =>
      match lookupIndices ws rest with
      | .error e => .error e
      | .ok is => .ok (i :: is)

/-- Last stage of `Mnemonic::phrase_to_entropy`: repack the bits into
bytes (`chunks(8)` plus the byte fold), pop the checksum byte, compare
it with the recomputed, right-shifted `SHA256` first byte.  The source's
`entropy.pop().unwrap()` panics on an empty vector; that point is only
reached after `Type::from_words` succeeded, which forces at least 12
words, so the `getD` default is unreachable. -/
def decodeChecksumCheck (ext : Externals) (ty : MnemonicType)
    (bits : List Nat) : Except ErrKind (List Nat) :=
  let entropy := (chunkList 8 bits).map natBitsVal
  let checksum := entropy.getLast?.getD 0
  let ent := entropy.dropLast
  let calculated := (ext.sha256 ent).getD 0 0
  let expected := calculated >>> (8 - ty.checksumBits)
  if checksum ≠ expected then .error .InvalidChecksum
  else .ok ent

/-- Middle stage of `Mnemonic::phrase_to_entropy`: expand the indices to
bits, check the word count through `Type::from_words`. -/
def decodeIndicesToEntropy (ext : Externals) (idxs : List Nat) :
    Except ErrKind (List Nat) :=
  let bits := idxs.flatMap (expandBits 11)
  match MnemonicType.fromWords (bits.length / 11) with
  | .error e => .error e
  | .ok ty => decodeChecksumCheck ext ty bits

/-- Embedding of `Mnemonic::phrase_to_entropy`, staged as: word lookup
(`lookupIndices`), then bit expansion and checksum verification. -/
def Mnemonic.phraseToEntropy (ext : Externals) (ws : List String)
    (phrase : String) : Except ErrKind (List Nat) :=
  match lookupIndices ws (wsplit phrase) with
  | .error e => .error e
  | .ok idxs => decodeIndicesToEntropy ext idxs

/-- Embedding of `Mnemonic::validate`. -/
def Mnemonic.validate (ext : Externals) (ws : List String)
    (phrase : String) : Except ErrKind Unit :=
  match Mnemonic.phraseToEntropy ext ws phrase with
  | .error e => .error e
  | .ok _ => .ok ()

/-- Embedding of `Mnemonic::from_phrase`: NFKD-normalize the phrase, decode it, store
the normalized phrase together with the decoded entropy. -/
def Mnemonic.fromPhrase (ext : Externals) (ws : List String)
    (phrase : String) : Except ErrKind Mnemonic :=
  let p := ext.nfkd phrase
  match Mnemonic.phraseToEntropy ext ws p with
  | .error e => .error e
  | .ok ent => .ok { entropy := ent, phrase := p }

/-- Embedding of `Mnemonic::from_entropy`, with the source's exact length check
`ent.len() % 4 != 0 || !(16..32).contains(&ent.len())` (note the
exclusive upper bound). -/
def Mnemonic.fromEntropy (ext : Externals) (ws : List String)
    (ent : List Nat) : Except ErrKind Mnemonic :=
  if ent.length % 4 ≠ 0 ∨ ¬(16 ≤ ent.length ∧ ent.length < 32) then
    .error (.InvalidEntropyLength ent.length)
  else .ok (Mnemonic.fromEntropyUnchecked ext ws ent)

/-- Embedding of `Mnemonic::new` fills `ty.total_bits()/8` bytes from the thread RNG
and calls `from_entropy_unchecked`; the RNG is external, so the random
bytes are a parameter (their length is pinned in the theorems). -/
def Mnemonic.new (ext : Externals) (ws : List String) (_ty : MnemonicType)
    (randomBytes : List Nat) : Mnemonic :=
  Mnemonic.fromEntropyUnchecked ext ws randomBytes

/-! ## `src/bip39/mod.rs`: the second, independent BIP39 implementation -/

inductive Bip39Error
  | InvalidEntropyBits (bits : Nat)
  | InvalidWordIndex (index : Nat)
  | InvalidEntropy
  | InvalidMnemonic (mnemonic : String)
  | InvalidWord (word : String)
deriving DecidableEq

/-- Outcome of a run of `BIP39::new_entropy_from_mnemonic`, with a
distinguished `panic` constructor modelling an out-of-bounds slice
index; proving a result is never `panic` is the memory-safety claim. -/
inductive BipOutcome
  | ok (value : List Nat)
  | err (e : Bip39Error)
  | panic
deriving DecidableEq

/-- Embedding of `WordList::get` of `src/bip39/mod.rs` (`self.words.get(index).copied()`,
an `Option`, unlike the panicking indexing of `language.rs`). -/
def bip39Get (ws : List String) (index : Nat) : Option String :=
  ws.get? index

/-- Embedding of `WordList::index_of`: `self.words.iter().position(|&s| s == word)`,
the first matching position. -/
def bip39IndexOf (ws : List String) (word : String) : Option Nat :=
  ws.findIdx? (fun s => s == word)

/-- Embedding of `BIP39::new_entropy`: the bit-size guard
`bits % 32 != 0 || bits < 128 || bits > 256` (inclusive upper bound);
the RNG is external, so the bytes it would produce are a parameter. -/
def newEntropy (bits : Nat) (randomBytes : List Nat) :
    Except Bip39Error (List Nat) :=
  if bits % 32 ≠ 0 ∨ bits < 128 ∨ 256 < bits then
    .error (.InvalidEntropyBits bits)
  else .ok (randomBytes.take (bits / 8))

/-- Embedding of `BIP39::add_checksum`: appends `entropy.len()/4` whole bytes of
`SHA256(entropy)` (the indexing `hash[i]` would panic were the digest
shorter; the real digest has 32 bytes, `getD` marks that spot). -/
def addChecksum (ext : Externals) (entropy : List Nat) : List Nat :=
  entropy ++ (List.range (entropy.length / 4)).map
    (fun i => (ext.sha256 entropy).getD i 0)

/-- The word indices chosen by `BIP39::new_mnemonic`:
`(checksum[i / 3] >> (5 - (i % 3) * 2)) & 0x1f` for
`i in 0..checksum.len() * 3 / 4` (5-bit masked values). -/
def newMnemonicIndices (checksummed : List Nat) : List Nat :=
  (List.range (checksummed.length * 3 / 4)).map
    (fun i => checksummed.getD (i / 3) 0 >>> (5 - i % 3 * 2) &&& 0x1f)

/-- The word collection of `new_mnemonic`:
`self.0.get(index).ok_or(InvalidWordIndex)` for each index. -/
def newMnemonicWords (ws : List String) : List Nat → Except Bip39Error (List String)
  | [] => .ok []
  | idx :: rest =>
    match bip39Get ws idx with
    | none => .error (.InvalidWordIndex idx)
    | some w =>
      match newMnemonicWords ws rest with
      | .error e => .error e
      | .ok tail => .ok (w :: tail)

/-- Embedding of `BIP39::new_mnemonic`. -/
def newMnemonic (ext : Externals) (ws : List String) (entropy : List Nat) :
    Except Bip39Error String :=
  match newMnemonicWords ws (newMnemonicIndices (addChecksum ext entropy)) with
  | .error e => .error e
  | .ok words => .ok (joinWords words)

/-- The per-word lookups of `new_entropy_from_mnemonic`
(`index_of(word).ok_or(InvalidWord(word))`, failing fast on the first
missing word, exactly as the source loop does). -/
def bip39LookupIndices (ws : List String) :
    List String → Except Bip39Error (List Nat)
  | [] => .ok []
  | w :: rest =>
    match bip39IndexOf ws w with
    | none => .error (.InvalidWord w)
    | some i =>
      match bip39LookupIndices ws rest with
      | .error e => .error e
      | .ok is => .ok (i :: is)

/-- One iteration of the repacking loop of `new_entropy_from_mnemonic`:
`value = (value << 11) | index; bits += 11; if bits >= 8 { bits -= 8;
result.push(((value >> bits) & 0xFF) as u8); }`.  `value` is a `u32`,
hence the `% 2^32`.  State is `(result, bits, value)`. -/
def packStep (st : List Nat × Nat × Nat) (index : Nat) : List Nat × Nat × Nat :=
  let value := (st.2.2 <<< 11 ||| index) % 2 ^ 32
  let bits := st.2.1 + 11
  if 8 ≤ bits then (st.1 ++ [value >>> (bits - 8) &&& 0xFF], bits - 8, value)
  else (st.1, bits, value)

/-- The checksum-comparison loop
`for i in 0..ent_bytes / 4 { if result[ent_bytes + i] != hash[i] { .. } }`,
with each slice index instrumented: an out-of-bounds access is `panic`.
After the loop, `result.truncate(ent_bytes)`. -/
def checksumLoop (mnemonic : String) (result hash : List Nat)
    (entBytes : Nat) : List Nat → BipOutcome
  | [] => .ok (result.take entBytes)
  | i :: rest =>
    match result.get? (entBytes + i), hash.get? i with
    | some a, some b =>
      if a ≠ b then .err (.InvalidMnemonic mnemonic)
      else checksumLoop mnemonic result hash entBytes rest
    | _, _ => .panic

/-- Embedding of `BIP39::new_entropy_from_mnemonic`.  The source interleaves the word
lookup and the repacking inside one loop; since the lookup fails fast,
collecting the indices first (`bip39LookupIndices`) and then folding
(`packStep`) yields the same outcome. -/
def newEntropyFromMnemonic (ext : Externals) (ws : List String)
    (mnemonic : String) : BipOutcome :=
  let words := wsplit mnemonic
  let wordCount := words.length
  let sentenceBits := wordCount * 11
  let entBits := sentenceBits - sentenceBits / 33
  let entBytes := entBits / 8
  if sentenceBits % 11 ≠ 0 ∨ entBits < 128 ∨ 256 < entBits ∨ entBits % 32 ≠ 0 then
    .err (.InvalidMnemonic mnemonic)
  else
    match bip39LookupIndices ws words with
    | .error e => .err e
    | .ok idxs =>
      let st := idxs.foldl packStep ([], 0, 0)
      if 5 ≤ st.2.1 then .err (.InvalidMnemonic mnemonic)
      else checksumLoop mnemonic st.1 (ext.sha256 st.1) entBytes
        (List.range (entBytes / 4))

/-! ## UTF-8 and seeds -/

/-- Standard UTF-8 encoding of one Unicode scalar value. -/
def utf8EncodeCharNat (n : Nat) : List Nat :=
  if n < 0x80 then [n]
  else if n < 0x800 then [0xC0 ||| (n >>> 6), 0x80 ||| (n &&& 0x3F)]
  else if n < 0x10000 then
    [0xE0 ||| (n >>> 12), 0x80 ||| (n >>> 6 &&& 0x3F), 0x80 ||| (n &&& 0x3F)]
  else
    [0xF0 ||| (n >>> 18), 0x80 ||| (n >>> 12 &&& 0x3F),
      0x80 ||| (n >>> 6 &&& 0x3F), 0x80 ||| (n &&& 0x3F)]

/-- Embedding of `str::as_bytes`: the UTF-8 bytes of a string. -/
def utf8Bytes (s : String) : List Nat :=
  s.toList.flatMap (fun c => utf8EncodeCharNat c.toNat)

/-- Embedding of `Seed::new` of `src/bip39/seed.rs`:
`salt = format!("mnemonic{}", password)`, NFKD-normalized, then
`pbkdf2::<Hmac<Sha512>>(phrase_bytes, salt_bytes, 2048, &mut [0u8; 64])`. -/
def Seed.new (ext : Externals) (m : Mnemonic) (password : String) : List Nat :=
  ext.pbkdf2HmacSha512 (utf8Bytes m.phrase)
    (utf8Bytes (ext.nfkd ("mnemonic" ++ password))) 2048 64

/-- Embedding of `Seed::from_mnemonic` of `src/bips/bip39/seed.rs`.  The `Mnemonic`
type of that module (`src/bips/bip39/mod.rs`) is not among the sources;
modelled from the spec: `mnemonic.to_bytes()` is the phrase's bytes
("Input: a Mnemonic's phrase string and a passphrase string"). -/
def Seed.fromMnemonic (ext : Externals) (phrase passphrase : String) : List Nat :=
  ext.pbkdf2HmacSha512 (utf8Bytes phrase)
    (utf8Bytes (ext.nfkd ("mnemonic" ++ passphrase))) 2048 64

/-- Embedding of `BIP39::new_seed` of `src/bip39/mod.rs`: builds the same
`"mnemonic" + passphrase` salt but performs **no** NFKD normalization,
and always returns `Ok`. -/
def newSeed (ext : Externals) (mnemonic passphrase : String) :
    Except Bip39Error (List Nat) :=
  let salt := if passphrase = "" then "mnemonic" else "mnemonic" ++ passphrase
  .ok (ext.pbkdf2HmacSha512 (utf8Bytes mnemonic) (utf8Bytes salt) 2048 64)

/-! ## `src/bips/bip32/mod.rs`: extended-key derivation

`ChildNumber` and `DerivationPath` live in `src/bips/mod.rs`, which is
not among the sources.  Modelled from the spec: a `child_number` is a
"32-bit value whose top bit marks hardened", serialized as 4 big-endian
bytes (`child_number_be(4)`); a derivation path is an ordered sequence
of child numbers.  The `PrivateKey` key algebra of `laron_crypto` is an
external collaborator, kept abstract. -/

/-- Big-endian serialization of a 32-bit value
(`u32::to_be_bytes` / `child_number.to_bytes()`). -/
def be32 (v : Nat) : List Nat :=
  [v >>> 24 &&& 0xFF, v >>> 16 &&& 0xFF, v >>> 8 &&& 0xFF, v &&& 0xFF]

/-- Modelled from the spec: `child_number: 32-bit value whose top bit
marks "hardened"`. -/
structure ChildNumber where
  value : Nat
deriving DecidableEq

def ChildNumber.isHardened (cn : ChildNumber) : Bool :=
  decide (0x80000000 ≤ cn.value)

def ChildNumber.toBytes (cn : ChildNumber) : List Nat :=
  be32 cn.value

/-- Modelled from the spec: the external key-algebra component
(`PrivateKey::to_bytes`, `public_key().to_bytes()` 33-byte compressed,
`derive_child(tweak)` which may fail). -/
structure KeyAlgebra (K : Type) where
  toBytes : K → List Nat
  pubBytes : K → List Nat
  deriveChildKey : K → List Nat → Except String K

inductive DeriveError
  | DepthTooLarge
  | keyFailure (msg : String)
deriving DecidableEq

structure ExtendedKey (K : Type) where
  key : K
  parentFingerprint : List Nat
  childNumber : ChildNumber
  depth : Nat
  chainCode : List Nat
  version : Nat
deriving DecidableEq

/-- The HMAC input assembled by `ExtendedKey::derive_child` through its
`hmac.update` calls: `[0] ++ private_key ++ child_number` when hardened,
`public_key ++ child_number` otherwise. -/
def deriveChildMsg {K : Type} (ka : KeyAlgebra K) (parent : ExtendedKey K)
    (cn : ChildNumber) : List Nat :=
  if cn.isHardened then 0 :: ka.toBytes parent.key ++ cn.toBytes
  else ka.pubBytes parent.key ++ cn.toBytes

/-- Embedding of `ExtendedKey::derive_child` of `src/bips/bip32/mod.rs`.  The
`checked_add(1)` on the `u8` depth fails exactly at depth 255.  The
64-byte HMAC output is split at 32 (`split_at(32)`); the fingerprint is
`Ripemd160::digest(public_key)[0..4]` — a single hash stage. -/
def ExtendedKey.deriveChild {K : Type} (ext : Externals) (ka : KeyAlgebra K)
    (parent : ExtendedKey K) (cn : ChildNumber) :
    Except DeriveError (ExtendedKey K) :=
  if 255 ≤ parent.depth then .error .DepthTooLarge
  else
    let hout := ext.hmacSha512 parent.chainCode (deriveChildMsg ka parent cn)
    match ka.deriveChildKey parent.key (hout.take 32) with
    | .error e => .error (.keyFailure e)
    | .ok childKey =>
      .ok { key := childKey
            parentFingerprint := (ext.ripemd160 (ka.pubBytes parent.key)).take 4
            childNumber := cn
            depth := parent.depth + 1
            chainCode := hout.drop 32
            version := 0 }

/-- Embedding of `ExtendedKey::derive_path`: the source's loop
`for child_number in path.iter() { key = key.derive_child(*child_number)?; }`. -/
def ExtendedKey.derivePath {K : Type} (ext : Externals) (ka : KeyAlgebra K)
    (k : ExtendedKey K) : List ChildNumber → Except DeriveError (ExtendedKey K)
  | [] => .ok k
  | c :: cs =>
    match ExtendedKey.deriveChild ext ka k c with
    | .error e => .error e
    | .ok k2 => ExtendedKey.derivePath ext ka k2 cs

/-! ## `src/bip32/extended.rs`: the second derivation implementation -/

/-- The `SecretKey` algebra of `laron_crypto::crypto` used by
`src/bip32/extended.rs`, kept abstract like `KeyAlgebra`. -/
structure KeyAlgebra2 (K : Type) where
  toBytes : K → List Nat
  fromSlice : List Nat → Option K

structure ExtendedKey2 (K : Type) where
  key : K
  chainCode : List Nat
deriving DecidableEq

/-- The HMAC input of `ExtendedKey::derive` in `src/bip32/extended.rs`:
always `private_key_bytes ++ index_be` — no hardened branch, no `0x00`
prefix, no public key. -/
def derive2Msg {K : Type} (ka : KeyAlgebra2 K) (ek : ExtendedKey2 K)
    (index : Nat) : List Nat :=
  ka.toBytes ek.key ++ be32 index

/-- Embedding of `ExtendedKey::derive` of `src/bip32/extended.rs`: HMAC keyed by the
chain code, output split at `len / 2`, left half re-read as a key
(`SecretKey::from_slice`, error mapped to `"Invalid key"`). -/
def ExtendedKey2.derive {K : Type} (ext : Externals) (ka : KeyAlgebra2 K)
    (ek : ExtendedKey2 K) (index : Nat) : Except String (ExtendedKey2 K) :=
  let r := ext.hmacSha512 ek.chainCode (derive2Msg ka ek index)
  match ka.fromSlice (r.take (r.length / 2)) with
  | none => .error "Invalid key"
  | some k => .ok { key := k, chainCode := r.drop (r.length / 2) }

/-! ## Specification-side definitions

These follow the claims' wording, for refinement comparisons against the
embedded code. -/

/-- Claim C4's message layout: `0x00 || parent_private_key_bytes(32) ||
child_number_be(4)` when the child number is `≥ 2^31`, else
`parent_public_key_bytes(33) || child_number_be(4)`. -/
def specHmacMessage (privBytes pubBytes : List Nat) (childNumber : Nat) : List Nat :=
  if 2 ^ 31 ≤ childNumber then 0 :: privBytes ++ be32 childNumber
  else pubBytes ++ be32 childNumber

/-- Claim C5's encoding indices: the bit string partitioned into 11-bit
groups, each complete group read as a big-endian unsigned integer. -/
def specEncodeIndices (bits : List Nat) : List Nat :=
  (List.range (bits.length / 11)).map
    (fun j => natBitsVal ((bits.drop (11 * j)).take 11))

/-- Claim C7's seed: PBKDF2-HMAC-SHA512, password the phrase bytes, salt
the NFKD normalization of `"mnemonic" ++ passphrase`, 2048 iterations,
64 bytes. -/
def specSeed (ext : Externals) (phrase passphrase : String) : List Nat :=
  ext.pbkdf2HmacSha512 (utf8Bytes phrase)
    (utf8Bytes (ext.nfkd ("mnemonic" ++ passphrase))) 2048 64

/-! ## Concrete instantiations for witnesses and counterexamples

A synthetic wordlist whose word at index `i` is the 11-character binary
spelling of `i` — it satisfies every property the specification gives a
real wordlist (2048 distinct, nonempty, whitespace-free words, word map
inverse to word list), while staying amenable to proof. -/

def bitChar (b : Nat) : Char := if b = 1 then '1' else '0'

def bitVal (c : Char) : Nat := if c = '1' then 1 else 0

def encodeWord (i : Nat) : String :=
  String.mk ((expandBits 11 i).map bitChar)

def decodeWord (s : String) : Nat :=
  s.toList.foldl (fun a c => 2 * a + bitVal c) 0

def witWords : List String := (List.range 2048).map encodeWord

def tinyWords : List String := (List.range 32).map encodeWord

def extZero : Externals :=
  { sha256 := fun _ => List.replicate 32 0
    hmacSha512 := fun _ _ => List.replicate 64 0
    pbkdf2HmacSha512 := fun _ _ _ _ => List.replicate 64 0
    ripemd160 := fun _ => List.replicate 20 0
    nfkd := fun s => s }

def extFp : Externals :=
  { extZero with
    sha256 := fun _ => List.replicate 32 7
    ripemd160 := fun l => (l ++ List.replicate 20 9).take 20 }

def extSalt : Externals :=
  { extZero with
    nfkd := fun s => s ++ "!"
    pbkdf2HmacSha512 := fun _ salt _ _ => salt }

def kaDummy : KeyAlgebra (List Nat) :=
  { toBytes := id
    pubBytes := fun _ => List.replicate 33 2
    deriveChildKey := fun _ tweak => .ok tweak }

def ka2Dummy : KeyAlgebra2 (List Nat) :=
  { toBytes := id
    fromSlice := fun l => some l }

def parentZero : ExtendedKey (List Nat) :=
  { key := List.replicate 32 1
    parentFingerprint := List.replicate 4 0
    childNumber := ⟨0⟩
    depth := 0
    chainCode := List.replicate 32 3
    version := 0 }

def parentMax : ExtendedKey (List Nat) :=
  { parentZero with depth := 255 }

def ek2Zero : ExtendedKey2 (List Nat) :=
  { key := List.replicate 32 1
    chainCode := List.replicate 32 3 }

/-! ### Properties of the synthetic wordlist -/

theorem foldl_two_mul_eq_lor :
    ∀ (l : List Nat), (∀ x ∈ l, x < 2) → ∀ a,
      List.foldl (fun a x => 2 * a + x) a l
        = List.foldl (fun acc bit => acc <<< 1 ||| bit) a l := by
  intro l
  induction l with
  | nil => intro _ a; rfl
  | cons x xs ih =>
    intro h a
    simp only [List.foldl_cons]
    rw [shiftLeft_one_lor (h x (by simp))]
    exact ih (fun y hy => h y (by simp [hy])) _

theorem foldl_bitVal_bitChar :
    ∀ (l : List Nat), (∀ x ∈ l, x < 2) → ∀ a,
      List.foldl (fun a c => 2 * a + bitVal c) a (l.map bitChar)
        = List.foldl (fun a x => 2 * a + x) a l := by
  intro l
  induction l with
  | nil => intro _ a; rfl
  | cons x xs ih =>
    intro h a
    simp only [List.map_cons, List.foldl_cons]
    have hx : x < 2 := h x (by simp)
    have : bitVal (bitChar x) = x := by
      interval_cases x <;> rfl
    rw [this]
    exact ih (fun y hy => h y (by simp [hy])) _

theorem decodeWord_encodeWord {i : Nat} (hi : i < 2048) :
    decodeWord (encodeWord i) = i := by
  unfold decodeWord encodeWord
  have htl : (String.mk ((expandBits 11 i).map bitChar)).toList
      = (expandBits 11 i).map bitChar := rfl
  rw [htl]
  have hb : ∀ x ∈ expandBits 11 i, x < 2 := fun x hx => mem_expandBits_lt_two hx
  rw [foldl_bitVal_bitChar _ hb, foldl_two_mul_eq_lor _ hb]
  exact natBitsVal_expandBits (by norm_num at hi ⊢; exact hi)

theorem encodeWord_inj {a b : Nat} (ha : a < 2048) (hb : b < 2048)
    (h : encodeWord a = encodeWord b) : a = b := by
  rw [← decodeWord_encodeWord ha, h, decodeWord_encodeWord hb]

theorem goodWord_encodeWord (i : Nat) : goodWord (encodeWord i) := by
  constructor
  · have : (encodeWord i).toList = (expandBits 11 i).map bitChar := rfl
    rw [this]
    intro h
    have := congrArg List.length h
    simp [expandBits_length] at this
  · intro c hc
    have : (encodeWord i).toList = (expandBits 11 i).map bitChar := rfl
    rw [this] at hc
    obtain ⟨b, -, rfl⟩ := List.mem_map.mp hc
    unfold bitChar
    by_cases hb : b = 1
    · simp only [hb, if_pos rfl]; decide
    · simp only [if_neg hb]; decide

theorem wmLookupAux_no_match (w : String) :
    ∀ (l : List String) (s : Nat) (acc : Option Nat),
      (∀ x ∈ l, x ≠ w) → wmLookupAux w l s acc = acc := by
  intro l
  induction l with
  | nil => intro s acc _; rfl
  | cons x xs ih =>
    intro s acc h
    rw [wmLookupAux]
    have : (x == w) = false := beq_eq_false_iff_ne.mpr (h x (by simp))
    rw [this]
    exact ih (s + 1) acc (fun y hy => h y (by simp [hy]))

theorem wmLookupAux_last (w : String) :
    ∀ (l1 l2 : List String) (s : Nat) (acc : Option Nat),
      (∀ x ∈ l2, x ≠ w) →
      wmLookupAux w (l1 ++ w :: l2) s acc = some (s + l1.length) := by
  intro l1
  induction l1 with
  | nil =>
    intro l2 s acc h
    rw [List.nil_append, wmLookupAux]
    rw [beq_self_eq_true, if_pos rfl]
    rw [wmLookupAux_no_match w l2 (s + 1) (some s) h]
    simp
  | cons x xs ih =>
    intro l2 s acc h
    rw [List.cons_append, wmLookupAux]
    rw [ih l2 (s + 1) _ h]
    simp only [List.length_cons]
    congr 1
    omega

theorem range_map_split (f : Nat → String) :
    ∀ (n i : Nat), i < n →
      (List.range n).map f
        = (List.range i).map f
          ++ f i :: ((List.range (n - i - 1)).map (fun j => f (i + j + 1))) := by
  intro n i hin
  obtain ⟨k, hk⟩ : ∃ k, n = i + (k + 1) := ⟨n - i - 1, by omega⟩
  subst hk
  have hsub : i + (k + 1) - i - 1 = k := by omega
  rw [hsub, List.range_add, List.map_append]
  congr 1
  rw [List.range_succ_eq_map]
  simp only [List.map_map, List.map_cons]
  have hh : f (i + 0) = f i := by rw [Nat.add_zero]
  rw [hh]
  congr 1

theorem witWords_get {i : Nat} (hi : i < 2048) :
    wordListGet witWords i = encodeWord i := by
  unfold wordListGet witWords
  rw [List.getD_eq_getElem?_getD, List.getElem?_map, List.getElem?_range hi]
  rfl

theorem witWords_getIndex {i : Nat} (hi : i < 2048) :
    wordMapGetIndex witWords (encodeWord i) = .ok i := by
  unfold wordMapGetIndex witWords
  rw [range_map_split encodeWord 2048 i hi]
  rw [wmLookupAux_last]
  · simp
  · intro x hx
    obtain ⟨j, hj, rfl⟩ := List.mem_map.mp hx
    intro heq
    have hj2 : j < 2048 - i - 1 := List.mem_range.mp hj
    have := encodeWord_inj (by omega) hi heq
    omega

/-- The wordlist properties required of a real per-language wordlist
(2048 words, each nonempty and whitespace-free, word map the exact
inverse of the word list, as the specification prescribes). -/
def WordListValid (ws : List String) : Prop :=
  ws.length = 2048 ∧ (∀ w ∈ ws, goodWord w) ∧
    ∀ i, i < 2048 → wordMapGetIndex ws (wordListGet ws i) = .ok i

theorem witWords_valid : WordListValid witWords := by
  refine ⟨by simp [witWords], ?_, ?_⟩
  · intro w hw
    obtain ⟨j, -, rfl⟩ := List.mem_map.mp hw
    exact goodWord_encodeWord j
  · intro i hi
    rw [witWords_get hi]
    exact witWords_getIndex hi

theorem extZero_sha_valid : Sha256Valid extZero := by
  intro d
  constructor
  · simp [extZero]
  · intro b hb
    simp [extZero] at hb
    omega

/-! ## Round-trip of the `mnemonic.rs` codec -/

theorem mnemonicBits_lt_two {ext : Externals} {e : List Nat} :
    ∀ x ∈ mnemonicBits ext e, x < 2 := by
  intro x hx
  unfold mnemonicBits at hx
  obtain ⟨b, -, hxb⟩ := List.mem_flatMap.mp hx
  exact mem_expandBits_lt_two hxb

theorem encodeIndices_lt {ext : Externals} {e : List Nat} :
    ∀ i ∈ encodeIndices ext e, i < 2048 := by
  intro i hi
  unfold encodeIndices at hi
  obtain ⟨c, hc, rfl⟩ := List.mem_map.mp hi
  have hlen : c.length = 11 := by
    have := List.mem_takeWhile_imp hc
    simpa using this
  have hcmem : c ∈ chunkList 11 (mnemonicBits ext e) :=
    List.takeWhile_subset _ hc
  have hbits : ∀ x ∈ c, x < 2 := fun x hx =>
    mnemonicBits_lt_two _ (mem_chunkList hcmem hx)
  have := natBitsVal_lt hbits
  rw [hlen] at this
  norm_num at this
  exact this

theorem flatMap_expandBits8_length :
    ∀ l : List Nat, (l.flatMap (expandBits 8)).length = 8 * l.length := by
  intro l
  induction l with
  | nil => simp
  | cons b bs ih =>
    rw [List.flatMap_cons, List.length_append, expandBits_length, ih,
      List.length_cons]
    ring

theorem wordListGet_mem {ws : List String} (hlen : ws.length = 2048)
    {i : Nat} (hi : i < 2048) : wordListGet ws i ∈ ws := by
  unfold wordListGet
  rw [List.getD_eq_getElem?_getD, List.getElem?_eq_getElem (by omega)]
  simp only [Option.getD_some]
  exact List.getElem_mem _

theorem lookupIndices_map_get {ws : List String} (hws : WordListValid ws) :
    ∀ idxs : List Nat, (∀ i ∈ idxs, i < 2048) →
      lookupIndices ws (idxs.map (wordListGet ws)) = .ok idxs := by
  intro idxs
  induction idxs with
  | nil => intro _; rfl
  | cons i is ih =>
    intro h
    rw [List.map_cons, lookupIndices]
    rw [hws.2.2 i (h i (by simp))]
    rw [ih (fun j hj => h j (by simp [hj]))]

theorem take_expandBits :
    ∀ (k j v : Nat), j ≤ k → (expandBits k v).take j = expandBits j (v >>> (k - j)) := by
  intro k
  induction k with
  | zero =>
    intro j v hj
    interval_cases j
    simp [expandBits]
  | succ k ih =>
    intro j v hj
    cases j with
    | zero => simp [expandBits]
    | succ j2 =>
      rw [expandBits_succ, List.take_succ_cons, ih j2 v (by omega)]
      have harith : k + 1 - (j2 + 1) = k - j2 := by omega
      rw [harith, expandBits_succ]
      have hsh : (v >>> (k - j2)) >>> j2 = v >>> k := by
        rw [← Nat.shiftRight_add]
        congr 1
        omega
      rw [hsh]

theorem map_natBitsVal_expandBits8 {e : List Nat} (hb : ∀ b ∈ e, b < 256) :
    (e.map (expandBits 8)).map natBitsVal = e := by
  rw [List.map_map]
  have hpt : ∀ b ∈ e, (natBitsVal ∘ expandBits 8) b = id b := by
    intro b hbm
    simp only [Function.comp_apply, id]
    exact natBitsVal_expandBits (by
      have := hb b hbm
      norm_num
      omega)
  rw [List.map_congr_left hpt, List.map_id]

theorem sha256_getD_lt {ext : Externals} (hext : Sha256Valid ext) (d : List Nat) :
    (ext.sha256 d).getD 0 0 < 256 := by
  obtain ⟨hlen, hmem⟩ := hext d
  rw [List.getD_eq_getElem?_getD, List.getElem?_eq_getElem (by omega)]
  simp only [Option.getD_some]
  exact hmem _ (List.getElem_mem _)

theorem decode_bits_eq {ext : Externals} {e : List Nat} :
    (encodeIndices ext e).flatMap (expandBits 11)
      = (mnemonicBits ext e).take (11 * ((mnemonicBits ext e).length / 11)) := by
  unfold encodeIndices
  have hdef : (((chunkList 11 (mnemonicBits ext e)).takeWhile
        (fun c => c.length == 11)).map natBitsVal).flatMap (expandBits 11)
      = (((chunkList 11 (mnemonicBits ext e)).takeWhile
        (fun c => c.length == 11)).map
          (fun c => expandBits 11 (natBitsVal c))).flatten := by
    show List.flatten _ = _
    rw [List.map_map]
    rfl
  rw [hdef]
  have hid : ((chunkList 11 (mnemonicBits ext e)).takeWhile
        (fun c => c.length == 11)).map (fun c => expandBits 11 (natBitsVal c))
      = ((chunkList 11 (mnemonicBits ext e)).takeWhile
        (fun c => c.length == 11)).map id := by
    apply List.map_congr_left
    intro c hc
    have hlen : c.length = 11 := by
      have := List.mem_takeWhile_imp hc
      simpa using this
    have hcmem : c ∈ chunkList 11 (mnemonicBits ext e) :=
      List.takeWhile_subset _ hc
    have hbits : ∀ x ∈ c, x < 2 := fun x hx =>
      mnemonicBits_lt_two _ (mem_chunkList hcmem hx)
    simp only [id]
    rw [← hlen]
    exact expandBits_natBitsVal hbits
  rw [hid, List.map_id]
  exact flatten_takeWhile_chunkList 11 (mnemonicBits ext e)

theorem roundTrip_aux (ext : Externals) (hext : Sha256Valid ext)
    (ws : List String) (hws : WordListValid ws)
    (e : List Nat) (hb : ∀ b ∈ e, b < 256)
    (L cb : Nat) (hL : e.length = L)
    (h1 : 11 * ((8 * L + 8) / 11) = 8 * L + cb)
    (ty : MnemonicType) (h3 : MnemonicType.fromWords ((8 * L + cb) / 11) = .ok ty)
    (h4 : ty.checksumBits = cb) (h5 : 0 < cb) (h6 : cb ≤ 8) :
    Mnemonic.phraseToEntropy ext ws
      (Mnemonic.fromEntropyUnchecked ext ws e).phrase = .ok e := by
  have hc : mnemonicChecksumByte ext e < 256 := sha256_getD_lt hext e
  have hidx : ∀ i ∈ encodeIndices ext e, i < 2048 := encodeIndices_lt
  have hwordsGood : ∀ w ∈ (encodeIndices ext e).map (wordListGet ws), goodWord w := by
    intro w hw
    obtain ⟨i, him, rfl⟩ := List.mem_map.mp hw
    exact hws.2.1 _ (wordListGet_mem hws.1 (hidx i him))
  have hphrase : (Mnemonic.fromEntropyUnchecked ext ws e).phrase
      = joinWords ((encodeIndices ext e).map (wordListGet ws)) := rfl
  have hsplit := wsplit_joinWords hwordsGood
  have hlookup := lookupIndices_map_get hws _ hidx
  have hBsplit : mnemonicBits ext e
      = e.flatMap (expandBits 8) ++ expandBits 8 (mnemonicChecksumByte ext e) := by
    unfold mnemonicBits
    rw [List.flatMap_append]
    congr 1
  have hXlen : (e.flatMap (expandBits 8)).length = 8 * L := by
    rw [flatMap_expandBits8_length, hL]
  have hBlen : (mnemonicBits ext e).length = 8 * L + 8 := by
    rw [hBsplit, List.length_append, hXlen, expandBits_length]
  have hbits_eq : (encodeIndices ext e).flatMap (expandBits 11)
      = e.flatMap (expandBits 8)
        ++ expandBits cb (mnemonicChecksumByte ext e >>> (8 - cb)) := by
    rw [decode_bits_eq, hBlen, h1, hBsplit]
    rw [show 8 * L + cb = (e.flatMap (expandBits 8)).length + cb by rw [hXlen]]
    rw [List.take_add, List.take_left, List.drop_left]
    rw [take_expandBits 8 cb _ h6]
  have hbitslen : ((encodeIndices ext e).flatMap (expandBits 11)).length
      = 8 * L + cb := by
    rw [hbits_eq, List.length_append, hXlen, expandBits_length]
  have hshift : mnemonicChecksumByte ext e >>> (8 - cb) < 2 ^ cb := by
    rw [Nat.shiftRight_eq_div_pow]
    rw [Nat.div_lt_iff_lt_mul (Nat.pos_pow_of_pos _ (by norm_num))]
    rw [← pow_add]
    have : cb + (8 - cb) = 8 := by omega
    rw [this]
    norm_num
    omega
  have hcsval : natBitsVal (expandBits cb (mnemonicChecksumByte ext e >>> (8 - cb)))
      = mnemonicChecksumByte ext e >>> (8 - cb) := natBitsVal_expandBits hshift
  have hchunks : (chunkList 8 ((encodeIndices ext e).flatMap (expandBits 11))).map
        natBitsVal
      = e ++ [mnemonicChecksumByte ext e >>> (8 - cb)] := by
    rw [hbits_eq]
    rw [show e.flatMap (expandBits 8) = (e.map (expandBits 8)).flatten from rfl]
    rw [chunkList_uniform (by norm_num) (e.map (expandBits 8)) _
      (by
        intro b hbm
        obtain ⟨x, -, rfl⟩ := List.mem_map.mp hbm
        exact expandBits_length 8 x)
      (by
        intro hnil
        have := congrArg List.length hnil
        rw [expandBits_length] at this
        simp at this
        omega)
      (by rw [expandBits_length]; exact h6)]
    rw [List.map_append, map_natBitsVal_expandBits8 hb, List.map_cons,
      List.map_nil, hcsval]
  rw [hphrase]
  unfold Mnemonic.phraseToEntropy
  rw [hsplit, hlookup]
  show decodeIndicesToEntropy ext (encodeIndices ext e) = .ok e
  simp only [decodeIndicesToEntropy]
  rw [hbitslen, h3]
  show decodeChecksumCheck ext ty ((encodeIndices ext e).flatMap (expandBits 11))
      = .ok e
  simp only [decodeChecksumCheck]
  rw [hchunks, List.getLast?_concat, List.dropLast_concat, h4]
  simp only [Option.getD_some]
  rw [if_neg]
  intro hne
  exact hne rfl

deriving instance DecidableEq for Except

/-- Round trip of the `mnemonic.rs` codec, for every supported entropy
length (16, 20, 24, 28 or 32 bytes, stated through the `Type` enum). -/
theorem roundTrip (ext : Externals) (hext : Sha256Valid ext)
    (ws : List String) (hws : WordListValid ws)
    (e : List Nat) (hb : ∀ b ∈ e, b < 256)
    (ty : MnemonicType) (hL : e.length = ty.totalBits / 8) :
    Mnemonic.phraseToEntropy ext ws
      (Mnemonic.fromEntropyUnchecked ext ws e).phrase = .ok e := by
  cases ty with
  | words12 =>
    exact roundTrip_aux ext hext ws hws e hb 16 4 (by rw [hL]; decide)
      (by decide) .words12 (by decide) (by decide) (by decide) (by decide)
  | words15 =>
    exact roundTrip_aux ext hext ws hws e hb 20 5 (by rw [hL]; decide)
      (by decide) .words15 (by decide) (by decide) (by decide) (by decide)
  | words18 =>
    exact roundTrip_aux ext hext ws hws e hb 24 6 (by rw [hL]; decide)
      (by decide) .words18 (by decide) (by decide) (by decide) (by decide)
  | words21 =>
    exact roundTrip_aux ext hext ws hws e hb 28 7 (by rw [hL]; decide)
      (by decide) .words21 (by decide) (by decide) (by decide) (by decide)
  | words24 =>
    exact roundTrip_aux ext hext ws hws e hb 32 8 (by rw [hL]; decide)
      (by decide) .words24 (by decide) (by decide) (by decide) (by decide)

/-! ## Behaviour of `derive_child` and `derive_path` -/

theorem deriveChild_depth_succ {K : Type} (ext : Externals) (ka : KeyAlgebra K)
    (p : ExtendedKey K) (cn : ChildNumber) (h : p.depth < 255) :
    ∀ c, ExtendedKey.deriveChild ext ka p cn = .ok c → c.depth = p.depth + 1 := by
  intro c hc
  unfold ExtendedKey.deriveChild at hc
  rw [if_neg (by omega)] at hc
  dsimp only at hc
  cases hk : ka.deriveChildKey p.key
      ((ext.hmacSha512 p.chainCode (deriveChildMsg ka p cn)).take 32) with
  | error e => rw [hk] at hc; simp at hc
  | ok ck =>
    rw [hk] at hc
    injection hc with h2
    rw [← h2]

theorem deriveChild_depth_max {K : Type} (ext : Externals) (ka : KeyAlgebra K)
    (p : ExtendedKey K) (cn : ChildNumber) (h : p.depth = 255) :
    ExtendedKey.deriveChild ext ka p cn = .error .DepthTooLarge := by
  unfold ExtendedKey.deriveChild
  rw [if_pos (by omega)]

theorem derivePath_nil {K : Type} (ext : Externals) (ka : KeyAlgebra K)
    (k : ExtendedKey K) : ExtendedKey.derivePath ext ka k [] = .ok k := rfl

theorem derivePath_cons {K : Type} (ext : Externals) (ka : KeyAlgebra K)
    (k : ExtendedKey K) (c : ChildNumber) (cs : List ChildNumber) :
    ExtendedKey.derivePath ext ka k (c :: cs)
      = (ExtendedKey.deriveChild ext ka k c).bind
          (fun k2 => ExtendedKey.derivePath ext ka k2 cs) := by
  cases h : ExtendedKey.deriveChild ext ka k c with
  | error e => rw [ExtendedKey.derivePath, h]; rfl
  | ok k2 => rw [ExtendedKey.derivePath, h]; rfl

theorem derivePath_foldlM {K : Type} (ext : Externals) (ka : KeyAlgebra K)
    (k : ExtendedKey K) (path : List ChildNumber) :
    ExtendedKey.derivePath ext ka k path
      = path.foldlM (fun k2 c => ExtendedKey.deriveChild ext ka k2 c) k := by
  induction path generalizing k with
  | nil => rfl
  | cons c cs ih =>
    rw [derivePath_cons, List.foldlM_cons]
    cases h : ExtendedKey.deriveChild ext ka k c with
    | error e => rfl
    | ok k2 =>
      show ExtendedKey.derivePath ext ka k2 cs = _
      rw [ih]
      rfl

/-! ## Claims -/

/-- C6: for every parent `ExtendedKey` with depth < 255, `derive_child`
either fails or returns a child whose depth equals the parent's depth
plus exactly 1; for every parent with depth = 255, `derive_child` fails
with `DepthTooLarge` and produces no key. -/
theorem claim_C6 {K : Type} (ext : Externals) (ka : KeyAlgebra K)
    (p : ExtendedKey K) (cn : ChildNumber) :
    (p.depth < 255 → ∀ c, ExtendedKey.deriveChild ext ka p cn = .ok c →
        c.depth = p.depth + 1)
    ∧ (p.depth = 255 →
        ExtendedKey.deriveChild ext ka p cn = .error .DepthTooLarge) :=
  ⟨fun h => deriveChild_depth_succ ext ka p cn h,
   fun h => deriveChild_depth_max ext ka p cn h⟩

/-- The child that `derive_child` produces from `parentZero` under the
dummy externals, spelled out. -/
def childZero : ExtendedKey (List Nat) :=
  { key := List.replicate 32 0
    parentFingerprint := List.replicate 4 0
    childNumber := ⟨0⟩
    depth := 1
    chainCode := List.replicate 32 0
    version := 0 }

/-- Witness for C6 at a depth-0 and a depth-255 parent. -/
theorem claim_C6_witness :
    childZero.depth = parentZero.depth + 1
    ∧ ExtendedKey.deriveChild extZero kaDummy parentMax ⟨0⟩
        = .error .DepthTooLarge :=
  ⟨(claim_C6 extZero kaDummy parentZero ⟨0⟩).1 (by decide) childZero (by decide),
   (claim_C6 extZero kaDummy parentMax ⟨0⟩).2 (by decide)⟩

/-- C8: `derive_path` equals the left-to-right fold of `derive_child`
from the root: the empty path returns the root, a step's failure aborts
the traversal with that step's error (the `Except.bind` equation), and
the whole traversal is `foldlM` of `derive_child`. -/
theorem claim_C8 :
    (∀ (K : Type) (ext : Externals) (ka : KeyAlgebra K) (k : ExtendedKey K),
      ExtendedKey.derivePath ext ka k [] = .ok k)
    ∧ (∀ (K : Type) (ext : Externals) (ka : KeyAlgebra K) (k : ExtendedKey K)
        (c : ChildNumber) (cs : List ChildNumber),
        ExtendedKey.derivePath ext ka k (c :: cs)
          = (ExtendedKey.deriveChild ext ka k c).bind
              (fun k2 => ExtendedKey.derivePath ext ka k2 cs))
    ∧ (∀ (K : Type) (ext : Externals) (ka : KeyAlgebra K) (k : ExtendedKey K)
        (path : List ChildNumber),
        ExtendedKey.derivePath ext ka k path
          = path.foldlM (fun k2 c => ExtendedKey.deriveChild ext ka k2 c) k) :=
  ⟨fun _ ext ka k => derivePath_nil ext ka k,
   fun _ ext ka k c cs => derivePath_cons ext ka k c cs,
   fun _ ext ka k path => derivePath_foldlM ext ka k path⟩

set_option maxRecDepth 4096 in
/-- C2 (code_bug): `Mnemonic::from_entropy` rejects 32-byte (256-bit)
entropy with `InvalidEntropyLength(32)` because of the exclusive
`(16..32)` range, while accepting 16 bytes; `BIP39::new_entropy`, with
its inclusive check, accepts 256 bits and rejects 288 and 64. -/
theorem claim_C2 :
    Mnemonic.fromEntropy extZero tinyWords (List.replicate 32 0)
        = .error (.InvalidEntropyLength 32)
    ∧ Mnemonic.fromEntropy extZero tinyWords (List.replicate 16 0)
        = .ok (Mnemonic.fromEntropyUnchecked extZero tinyWords (List.replicate 16 0))
    ∧ newEntropy 256 (List.replicate 32 0) = .ok (List.replicate 32 0)
    ∧ newEntropy 288 (List.replicate 36 0) = .error (.InvalidEntropyBits 288)
    ∧ newEntropy 64 (List.replicate 8 0) = .error (.InvalidEntropyBits 64) := by
  refine ⟨by decide, by decide, by decide, by decide, by decide⟩

/-- C3 (code_bug): the `parent_fingerprint` computed by `derive_child`
is the first 4 bytes of a single `RIPEMD160` of the public key bytes —
the SHA-256 stage claimed (and required by BIP32) is absent, as an
instantiation separating the two formulas shows. -/
theorem claim_C3 :
    ∃ c, ExtendedKey.deriveChild extFp kaDummy parentZero ⟨0⟩ = .ok c
      ∧ c.parentFingerprint
          = (extFp.ripemd160 (kaDummy.pubBytes parentZero.key)).take 4
      ∧ c.parentFingerprint
          ≠ (extFp.ripemd160 (extFp.sha256 (kaDummy.pubBytes parentZero.key))).take 4 :=
  ⟨_, rfl, by decide, by decide⟩

/-- C4 (code_bug): `derive_child` in `bips/bip32` assembles exactly the
claimed HMAC message (`0x00 || priv(32) || index_be(4)` when hardened,
`pub(33) || index_be(4)` otherwise), but `derive` in
`bip32/extended.rs` does not: its message is always the raw private key
bytes followed by the index, for normal and hardened indices alike. -/
theorem claim_C4 :
    (∀ (K : Type) (ka : KeyAlgebra K) (p : ExtendedKey K) (cn : ChildNumber),
        deriveChildMsg ka p cn
          = specHmacMessage (ka.toBytes p.key) (ka.pubBytes p.key) cn.value)
    ∧ derive2Msg ka2Dummy ek2Zero 0
        ≠ specHmacMessage (ka2Dummy.toBytes ek2Zero.key) (List.replicate 33 2) 0
    ∧ derive2Msg ka2Dummy ek2Zero (2 ^ 31)
        ≠ specHmacMessage (ka2Dummy.toBytes ek2Zero.key) (List.replicate 33 2)
            (2 ^ 31) := by
  refine ⟨?_, by decide, by decide⟩
  intro K ka p cn
  unfold deriveChildMsg specHmacMessage ChildNumber.isHardened ChildNumber.toBytes
  have hpow : (2 : Nat) ^ 31 = 0x80000000 := by norm_num
  rw [hpow]
  by_cases h : 0x80000000 ≤ cn.value
  · simp [h]
  · simp [h]

/-- C7 (code_bug): `Seed::new` and `Seed::from_mnemonic` both produce
exactly the claimed PBKDF2-HMAC-SHA512 seed (password the phrase bytes,
salt the NFKD normalization of `"mnemonic" ++ passphrase`, 2048
iterations, 64 bytes) and `BIP39::new_seed` has no error path — but
`new_seed` skips the NFKD normalization of the salt, so it differs from
the claimed seed whenever normalization is not the identity. -/
theorem claim_C7 :
    (∀ (ext : Externals) (m : Mnemonic) (password : String),
        Seed.new ext m password = specSeed ext m.phrase password)
    ∧ (∀ (ext : Externals) (phrase passphrase : String),
        Seed.fromMnemonic ext phrase passphrase = specSeed ext phrase passphrase)
    ∧ (∀ (ext : Externals) (mnemonic passphrase : String),
        ∃ s, newSeed ext mnemonic passphrase = .ok s)
    ∧ newSeed extSalt "m" "x" ≠ .ok (specSeed extSalt "m" "x") := by
  refine ⟨fun ext m password => rfl, fun ext phrase passphrase => rfl,
    fun ext mnemonic passphrase => ⟨_, rfl⟩, by decide⟩

set_option maxRecDepth 8192 in
/-- C5 (code_bug): the indices of `Mnemonic::from_entropy_unchecked`
are exactly the claimed complete 11-bit big-endian groups of the
entropy-plus-checksum bit string, each below 2048 — but
`BIP39::new_mnemonic` picks different, 5-bit-masked indices, already
differing on 16 bytes of `0xFF` entropy (15 indices instead of 12, the
first being 7 instead of 2047). -/
theorem claim_C5 :
    (∀ (ext : Externals) (e : List Nat),
        encodeIndices ext e = specEncodeIndices (mnemonicBits ext e))
    ∧ (∀ (ext : Externals) (e : List Nat),
        (encodeIndices ext e).all (fun i => decide (i < 2048)) = true)
    ∧ newMnemonicIndices (addChecksum extZero (List.replicate 16 255))
        ≠ specEncodeIndices (mnemonicBits extZero (List.replicate 16 255)) := by
  refine ⟨?_, ?_, by decide⟩
  · intro ext e
    unfold encodeIndices specEncodeIndices
    rw [takeWhile_chunkList_eq_slices, List.map_map]
    rfl
  · intro ext e
    rw [List.all_eq_true]
    intro i hi
    simp only [decide_eq_true_eq]
    exact encodeIndices_lt i hi

set_option maxRecDepth 8192 in
/-- C1 (code_bug): on the 16-zero-byte entropy, the `mnemonic.rs` codec
round-trips (`phrase_to_entropy (from_entropy_unchecked e).phrase = e`),
but the second codec does not: `new_entropy_from_mnemonic` rejects the
very phrase `new_mnemonic` produced, with `InvalidMnemonic` (its
repacking loop always ends with `bits = 3 * word_count ≥ 5`). -/
theorem claim_C1 :
    Mnemonic.phraseToEntropy extZero tinyWords
        (Mnemonic.fromEntropyUnchecked extZero tinyWords
          (List.replicate 16 0)).phrase
      = .ok (List.replicate 16 0)
    ∧ ∃ p, newMnemonic extZero tinyWords (List.replicate 16 0) = .ok p
        ∧ newEntropyFromMnemonic extZero tinyWords p
            = .err (.InvalidMnemonic p) := by
  refine ⟨by decide, ⟨_, rfl, by decide⟩⟩

/-! ## Safety of `new_entropy_from_mnemonic` -/

theorem bip39LookupIndices_ok {ws : List String} :
    ∀ words : List String, (∀ w ∈ words, (bip39IndexOf ws w).isSome = true) →
      ∃ idxs, bip39LookupIndices ws words = .ok idxs
        ∧ idxs.length = words.length := by
  intro words
  induction words with
  | nil => intro _; exact ⟨[], rfl, rfl⟩
  | cons w rest ih =>
    intro h
    obtain ⟨i, hi⟩ := Option.isSome_iff_exists.mp (h w (by simp))
    obtain ⟨is, his, hislen⟩ := ih (fun v hv => h v (by simp [hv]))
    refine ⟨i :: is, ?_, by simp [hislen]⟩
    rw [bip39LookupIndices, hi, his]

theorem packStep_bits (st : List Nat × Nat × Nat) (i : Nat) :
    (packStep st i).2.1 = st.2.1 + 3 := by
  unfold packStep
  rw [if_pos (by omega)]
  show st.2.1 + 11 - 8 = st.2.1 + 3
  omega

theorem packFold_bits :
    ∀ (idxs : List Nat) (st : List Nat × Nat × Nat),
      ((idxs.foldl packStep st).2.1) = st.2.1 + 3 * idxs.length := by
  intro idxs
  induction idxs with
  | nil => intro st; simp
  | cons i is ih =>
    intro st
    rw [List.foldl_cons, ih, packStep_bits, List.length_cons]
    ring

theorem newEFM_ok_branch (ext : Externals) (ws : List String) (phrase : String)
    (idxs : List Nat)
    (hguard : ¬ ((wsplit phrase).length * 11 % 11 ≠ 0
      ∨ (wsplit phrase).length * 11 - (wsplit phrase).length * 11 / 33 < 128
      ∨ 256 < (wsplit phrase).length * 11 - (wsplit phrase).length * 11 / 33
      ∨ ((wsplit phrase).length * 11 - (wsplit phrase).length * 11 / 33) % 32 ≠ 0))
    (hidxs : bip39LookupIndices ws (wsplit phrase) = .ok idxs) :
    newEntropyFromMnemonic ext ws phrase
      = (if 5 ≤ (idxs.foldl packStep ([], 0, 0)).2.1 then
          .err (.InvalidMnemonic phrase)
        else
          checksumLoop phrase (idxs.foldl packStep ([], 0, 0)).1
            (ext.sha256 (idxs.foldl packStep ([], 0, 0)).1)
            (((wsplit phrase).length * 11 - (wsplit phrase).length * 11 / 33) / 8)
            (List.range ((((wsplit phrase).length * 11
              - (wsplit phrase).length * 11 / 33) / 8) / 4))) := by
  simp only [newEntropyFromMnemonic]
  rw [if_neg hguard, hidxs]

/-- C9: for every phrase with a word count in {12, 15, 18, 21, 24} whose
words are all found in the wordlist, `new_entropy_from_mnemonic` never
performs an out-of-bounds index (the `panic` outcome instrumenting the
`result[ent_bytes + i]` and `hash[i]` accesses is unreachable: the
`bits >= 5` guard rejects every such phrase before the checksum loop). -/
theorem claim_C9 (ext : Externals) (ws : List String) (phrase : String)
    (hcount : (wsplit phrase).length ∈ ([12, 15, 18, 21, 24] : List Nat))
    (hfound : ∀ w ∈ wsplit phrase, (bip39IndexOf ws w).isSome = true) :
    newEntropyFromMnemonic ext ws phrase ≠ .panic := by
  obtain ⟨idxs, hidxs, hlen⟩ := bip39LookupIndices_ok (wsplit phrase) hfound
  have hbits : (idxs.foldl packStep ([], 0, 0)).2.1 = 3 * (wsplit phrase).length := by
    rw [packFold_bits, hlen]
    simp
  have hguard : ¬ ((wsplit phrase).length * 11 % 11 ≠ 0
      ∨ (wsplit phrase).length * 11 - (wsplit phrase).length * 11 / 33 < 128
      ∨ 256 < (wsplit phrase).length * 11 - (wsplit phrase).length * 11 / 33
      ∨ ((wsplit phrase).length * 11 - (wsplit phrase).length * 11 / 33) % 32 ≠ 0) := by
    simp only [List.mem_cons, List.not_mem_nil, or_false] at hcount
    rcases hcount with h | h | h | h | h <;> rw [h] <;> norm_num
  rw [newEFM_ok_branch ext ws phrase idxs hguard hidxs]
  rw [if_pos (by
    rw [hbits]
    simp only [List.mem_cons, List.not_mem_nil, or_false] at hcount
    rcases hcount with h | h | h | h | h <;> rw [h] <;> norm_num)]
  intro hcontra
  cases hcontra

set_option maxRecDepth 8192 in
/-- Witness for C9: a 12-word phrase over the synthetic wordlist. -/
theorem claim_C9_witness :
    newEntropyFromMnemonic extZero tinyWords
        (joinWords (List.replicate 12 (encodeWord 0))) ≠ .panic :=
  claim_C9 extZero tinyWords (joinWords (List.replicate 12 (encodeWord 0)))
    (by decide) (by decide)

/-- C10: every `Mnemonic` produced by `Mnemonic::new`,
`Mnemonic::from_entropy` or `Mnemonic::from_phrase` satisfies the
invariant: `validate` accepts its stored phrase, and decoding the stored
phrase yields exactly the stored entropy. -/
theorem claim_C10 (ext : Externals) (hext : Sha256Valid ext)
    (ws : List String) (hws : WordListValid ws) :
    (∀ (ty : MnemonicType) (rand : List Nat),
        rand.length = ty.totalBits / 8 → (∀ b ∈ rand, b < 256) →
        Mnemonic.validate ext ws (Mnemonic.new ext ws ty rand).phrase = .ok ()
          ∧ Mnemonic.phraseToEntropy ext ws (Mnemonic.new ext ws ty rand).phrase
              = .ok (Mnemonic.new ext ws ty rand).entropy)
    ∧ (∀ (e : List Nat) (m : Mnemonic), (∀ b ∈ e, b < 256) →
        Mnemonic.fromEntropy ext ws e = .ok m →
        Mnemonic.validate ext ws m.phrase = .ok ()
          ∧ Mnemonic.phraseToEntropy ext ws m.phrase = .ok m.entropy)
    ∧ (∀ (p : String) (m : Mnemonic),
        Mnemonic.fromPhrase ext ws p = .ok m →
        Mnemonic.validate ext ws m.phrase = .ok ()
          ∧ Mnemonic.phraseToEntropy ext ws m.phrase = .ok m.entropy) := by
  have hval : ∀ phrase ent2, Mnemonic.phraseToEntropy ext ws phrase = .ok ent2 →
      Mnemonic.validate ext ws phrase = .ok () := by
    intro phrase ent2 h
    unfold Mnemonic.validate
    rw [h]
  refine ⟨?_, ?_, ?_⟩
  · intro ty rand hlen hb
    have hrt := roundTrip ext hext ws hws rand hb ty hlen
    exact ⟨hval _ _ hrt, hrt⟩
  · intro e m hb hok
    unfold Mnemonic.fromEntropy at hok
    by_cases hg : e.length % 4 ≠ 0 ∨ ¬(16 ≤ e.length ∧ e.length < 32)
    · rw [if_pos hg] at hok
      simp at hok
    · rw [if_neg hg] at hok
      injection hok with hok2
      push_neg at hg
      have hcases : e.length = 16 ∨ e.length = 20 ∨ e.length = 24
          ∨ e.length = 28 := by omega
      have hrt : Mnemonic.phraseToEntropy ext ws
          (Mnemonic.fromEntropyUnchecked ext ws e).phrase = .ok e := by
        rcases hcases with h | h | h | h
        · exact roundTrip ext hext ws hws e hb .words12 (by rw [h]; decide)
        · exact roundTrip ext hext ws hws e hb .words15 (by rw [h]; decide)
        · exact roundTrip ext hext ws hws e hb .words18 (by rw [h]; decide)
        · exact roundTrip ext hext ws hws e hb .words21 (by rw [h]; decide)
      rw [← hok2]
      exact ⟨hval _ _ hrt, hrt⟩
  · intro p m hok
    simp only [Mnemonic.fromPhrase] at hok
    cases hpe : Mnemonic.phraseToEntropy ext ws (ext.nfkd p) with
    | error er => rw [hpe] at hok; simp at hok
    | ok ent =>
      rw [hpe] at hok
      injection hok with hok2
      rw [← hok2]
      exact ⟨hval _ _ hpe, hpe⟩

/-- Witness for C10: the 16-zero-byte entropy through `from_entropy`
over the synthetic 2048-word list. -/
theorem claim_C10_witness :
    Mnemonic.validate extZero witWords
        (Mnemonic.fromEntropyUnchecked extZero witWords
          (List.replicate 16 0)).phrase = .ok ()
    ∧ Mnemonic.phraseToEntropy extZero witWords
        (Mnemonic.fromEntropyUnchecked extZero witWords
          (List.replicate 16 0)).phrase
      = .ok (Mnemonic.fromEntropyUnchecked extZero witWords
          (List.replicate 16 0)).entropy :=
  (claim_C10 extZero extZero_sha_valid witWords witWords_valid).2.1
    (List.replicate 16 0) (Mnemonic.fromEntropyUnchecked extZero witWords
      (List.replicate 16 0))
    (by
      intro b hb
      rw [List.eq_of_mem_replicate hb]
      norm_num)
    rfl
